import Mathlib

/-!
Verification model of the `worktree` tool (repository `dionysuzx/worktree`).

The development shallowly embeds the tool's core — the worktree lifecycle
manager in `src/repo.rs`, the command dispatcher in `src/app.rs`, the
configuration resolver in `src/config.rs` and the retry driver wrapping the
git backend — as executable Lean definitions, and proves the specification's
claims about them.

Modelling conventions:
* a filesystem path is its list of components (`Path := List String`);
  `Path::starts_with` becomes component-wise list prefix (`isUnder`);
* the filesystem is an association list from paths to `FKind` (directory or
  plain file);
* external processes (the git backend, launched commands, the shell) are
  modelled by their observable outcomes, supplied as parameters: an attempt
  trace for the retry driver, an `Except`/exit-status value for one-shot
  calls;
* `process::exit(n)` is modelled by the outcome constructor `Res.exit n`.
-/

namespace Worktree

/-- A path, as its list of components (the Unix `/`-separated segments). -/
abbrev Path := List String

/-- Component-wise path prefix: Rust's `Path::starts_with`.
`isUnder pre p` is true when every component of `pre` is an initial
component of `p` (so a path is under itself). -/
def isUnder : Path → Path → Bool
  | [], _ => true
  | _ :: _, [] => false
  | a :: as, b :: bs => a == b && isUnder as bs

theorem isUnder_refl (p : Path) : isUnder p p = true := by
  induction p with
  | nil => rfl
  | cons a as ih => simp [isUnder, ih]

theorem isUnder_trans {p q r : Path} (h₁ : isUnder p q = true)
    (h₂ : isUnder q r = true) : isUnder p r = true := by
  induction p generalizing q r with
  | nil => rfl
  | cons a as ih =>
    cases q with
    | nil => simp [isUnder] at h₁
    | cons b bs =>
      cases r with
      | nil => simp [isUnder] at h₂
      | cons c cs =>
        simp only [isUnder, Bool.and_eq_true, beq_iff_eq] at h₁ h₂ ⊢
        exact ⟨h₁.1.trans h₂.1, ih h₁.2 h₂.2⟩

/-- A longer path is never under a strictly deeper extension of itself:
`p ++ [x]` is not a prefix of `p`. -/
theorem not_isUnder_append_singleton (p : Path) (x : String) :
    isUnder (p ++ [x]) p = false := by
  induction p with
  | nil => rfl
  | cons a as ih => simp [isUnder, ih]

/-- Render a path the way `Path::display` renders the joined components. -/
def Path.display (p : Path) : String :=
  String.intercalate "/" p

/-! ## Parsing of numbered worktree names (`src/repo.rs::worktree_index`) -/

/-- Decimal value of a digit list (most significant first). -/
def digitsVal (ds : List Char) : Nat :=
  ds.foldl (fun a c => a * 10 + (c.toNat - '0'.toNat)) 0

/-- Rust `usize::from_str` on a character list: an optional leading `+`,
then one or more ASCII digits; values not below `2 ^ 64` overflow to an
error (`usize` is 64-bit on the supported targets). -/
def parseUsize (cs : List Char) : Option Nat :=
  let ds := match cs with
    | '+' :: rest => rest
    | other => other
  if ds = [] then none
  else if ds.all Char.isDigit then
    let v := digitsVal ds
    if v < 2 ^ 64 then some v else none
  else none

/-- `str::strip_suffix` on character lists. -/
def stripSuffix (s suf : List Char) : Option (List Char) :=
  if suf.isSuffixOf s then some (s.take (s.length - suf.length)) else none

/-- `src/repo.rs::worktree_index`: the integer of a `<n>-wt` or legacy
`<n>-worktree` directory name. -/
def worktree_index (name : String) : Option Nat :=
  match stripSuffix name.toList "-wt".toList with
  | some p => parseUsize p
  | none =>
    match stripSuffix name.toList "-worktree".toList with
    | some p => parseUsize p
    | none => none

/-- One directory entry as `read_dir` reports it: its file name and whether
it is a directory. -/
structure DirEntry where
  name : String
  isDir : Bool
deriving DecidableEq, Repr

/-- `src/repo.rs::next_worktree_name`: fold the entries, keeping the highest
index contributed by a numbered subdirectory, and append `-wt` to its
successor (`0-wt` when no numbered subdirectory exists). The increment
`value + 1` is `usize` arithmetic: in a release build it wraps modulo
`2 ^ 64` (it overflows only for a highest index of `2 ^ 64 - 1`, the
largest value `parseUsize` admits). -/
def next_worktree_name (entries : List DirEntry) : String :=
  let highest := entries.foldl
    (fun acc e =>
      if e.isDir then
        match worktree_index e.name with
        | some index =>
          some (match acc with
            | some current => if current > index then current else index
            | none => index)
        | none => acc
      else acc)
    none
  let next := match highest with
    | some value => (value + 1) % 2 ^ 64
    | none => 0
  toString next ++ "-wt"

/-- Indices of the numbered subdirectories among `entries` (the
specification's "every subdirectory whose name matches `<integer>-wt` or
legacy `<integer>-worktree`"). -/
def numberedIndices (entries : List DirEntry) : List Nat :=
  entries.filterMap (fun e => if e.isDir then worktree_index e.name else none)

/-- The specification's reading of the generated index: one more than the
maximum contributed index, or `0` when no subdirectory contributes. -/
def specNextIndex (entries : List DirEntry) : Nat :=
  match (numberedIndices entries).max? with
  | some m => m + 1
  | none => 0

theorem max?_cons_cons (c i : Nat) (L : List Nat) :
    (c :: i :: L).max? = (max c i :: L).max? := by
  cases hL : L.max? with
  | none => simp [List.max?_cons, hL]
  | some m => simp [List.max?_cons, hL, Nat.max_assoc]

theorem next_worktree_name_foldl_eq_max (entries : List DirEntry) :
    entries.foldl
      (fun acc e =>
        if e.isDir then
          match worktree_index e.name with
          | some index =>
            some (match acc with
              | some current => if current > index then current else index
              | none => index)
          | none => acc
        else acc)
      none = (numberedIndices entries).max? := by
  suffices h : ∀ (l : List DirEntry) (acc : Option Nat),
      l.foldl
        (fun acc e =>
          if e.isDir then
            match worktree_index e.name with
            | some index =>
              some (match acc with
                | some current => if current > index then current else index
                | none => index)
            | none => acc
          else acc)
        acc = (acc.toList ++ numberedIndices l).max? by
    simpa using h entries none
  intro l
  induction l with
  | nil =>
    intro acc
    cases acc <;> simp [numberedIndices, List.max?]
  | cons e rest ih =>
    intro acc
    by_cases hd : e.isDir
    · cases hidx : worktree_index e.name with
      | none =>
        simp only [List.foldl_cons, hd, if_true, hidx]
        rw [ih acc]
        simp [numberedIndices, hd, hidx]
      | some index =>
        simp only [List.foldl_cons, hd, if_true, hidx]
        cases acc with
        | none =>
          rw [ih (some index)]
          simp [numberedIndices, hd, hidx]
        | some current =>
          rw [ih (some (if current > index then current else index))]
          have hmax : (if current > index then current else index)
              = max current index := by
            by_cases h : current > index
            · simp [h, Nat.max_eq_left (Nat.le_of_lt h)]
            · simp [h, Nat.max_eq_right (Nat.le_of_not_lt h)]
          rw [hmax]
          have hcons : numberedIndices (e :: rest)
              = index :: numberedIndices rest := by
            simp [numberedIndices, hd, hidx]
          rw [hcons]
          simp only [Option.toList_some, List.singleton_append]
          exact (max?_cons_cons current index (numberedIndices rest)).symm
    · simp only [List.foldl_cons]
      rw [if_neg hd, ih acc]
      have hcons : numberedIndices (e :: rest) = numberedIndices rest := by
        simp [numberedIndices, hd]
      rw [hcons]

/-! ## Path components and name validation (`src/repo.rs::validate_worktree_name`) -/

/-- A component of a relative or absolute Unix path, as Rust's
`std::path::Component` yields them (the `Prefix` variant is Windows-only). -/
inductive PComp where
  | rootDir : PComp
  | curDir : PComp
  | parentDir : PComp
  | normal : String → PComp
deriving DecidableEq, Repr

/-- Split a character list at every `/`. Empty groups are kept (they are
filtered by the component iterator afterwards). -/
def splitSlash : List Char → List (List Char)
  | [] => [[]]
  | c :: rest =>
    if c = '/' then [] :: splitSlash rest
    else
      match splitSlash rest with
      | g :: gs => (c :: g) :: gs
      | [] => [[c]]

/-- Rust's `Path::components()` on Unix, over the characters of the path:
repeated separators and `.` components are dropped, except that a path that
is exactly `.` or starts with `./` keeps one leading `CurDir`; a leading `/`
yields `RootDir`; `..` becomes `ParentDir`. -/
def compsCore (cs : List Char) : List PComp :=
  let hasRoot := cs.head? = some '/'
  let kept := (splitSlash cs).filter (fun p => !p.isEmpty && p != ['.'])
  let comps := kept.map
    (fun p => if p = ['.', '.'] then PComp.parentDir else PComp.normal (String.mk p))
  if hasRoot then PComp.rootDir :: comps
  else if cs = ['.'] ∨ cs.take 2 = ['.', '/'] then PComp.curDir :: comps
  else comps

/-- `Path::new(name).components()` for a string. -/
def componentsOf (name : String) : List PComp :=
  compsCore name.toList

/-- `src/repo.rs::validate_worktree_name`: the first component must exist,
there must be no second component, and the first component must be an
ordinary (`Normal`) one. -/
def validate_worktree_name (name : String) : Except String Unit :=
  match componentsOf name with
  | [PComp.normal _] => .ok ()
  | _ => .error ("invalid worktree name '" ++ name ++ "'")

theorem splitSlash_no_slash {cs : List Char} (h : '/' ∉ cs) :
    splitSlash cs = [cs] := by
  induction cs with
  | nil => rfl
  | cons c rest ih =>
    have hc : c ≠ '/' := fun hcc => h (hcc ▸ List.mem_cons_self c rest)
    have hrest : '/' ∉ rest := fun hr => h (List.mem_cons_of_mem c hr)
    simp only [splitSlash, if_neg hc, ih hrest]

/-- A nonempty name made only of characters other than `/` and `.`
has itself as its single ordinary component. -/
theorem componentsOf_single {s : String} (hne : s.toList ≠ [])
    (hchar : ∀ c ∈ s.toList, c ≠ '/' ∧ c ≠ '.') :
    componentsOf s = [PComp.normal s] := by
  have hslash : '/' ∉ s.toList := fun h => ((hchar _ h).1 rfl)
  have hmk : String.mk s.toList = s := by cases s; rfl
  obtain ⟨c, rest, hcs⟩ : ∃ c rest, s.toList = c :: rest := by
    cases h : s.toList with
    | nil => exact absurd h hne
    | cons c rest => exact ⟨c, rest, rfl⟩
  have hc := hchar c (hcs ▸ List.mem_cons_self c rest)
  have hroot : ¬ (s.toList.head? = some '/') := by
    rw [hcs]; simp [hc.1]
  have hcur : ¬ (s.toList = ['.'] ∨ s.toList.take 2 = ['.', '/']) := by
    rw [hcs]
    rintro (h1 | h2)
    · exact hc.2 (by injection h1)
    · cases rest with
      | nil => simp at h2
      | cons d ds =>
        simp at h2
        exact hc.2 h2.1
  have hfilter : (!s.toList.isEmpty && s.toList != ['.']) = true := by
    rw [hcs]
    cases rest with
    | nil => simp [hc.2]
    | cons d ds => simp
  have hdots : s.toList ≠ ['.', '.'] := by
    rw [hcs]; intro h; exact hc.2 (by injection h)
  simp only [componentsOf, compsCore]
  rw [splitSlash_no_slash hslash]
  rw [if_neg hroot, if_neg hcur]
  have hkeep : ([s.toList].filter (fun p => !p.isEmpty && p != ['.']))
      = [s.toList] := by
    simp only [List.filter_cons, hfilter, if_true, List.filter_nil]
  rw [hkeep]
  simp only [List.map_cons, List.map_nil]
  rw [if_neg hdots, hmk]

/-- A separator character strictly inside the string (neither first nor
last character). -/
def hasEmbeddedSeparator (s : String) : Bool :=
  ((s.toList.drop 1).dropLast).contains '/'

/-- C3 (amended): `nextName(managedDir)` returns `{(max+1) mod 2^64}-wt` —
`usize` wrapping arithmetic — where `max` is the maximum over the integers
of all subdirectories whose name parses as `<integer>-wt` or legacy
`<integer>-worktree`, and `0-wt` when no such subdirectory exists; whenever
`max + 1` does not overflow (every index except `2^64 - 1`) this is exactly
the claim's `{max+1}-wt`, max-based and not count-based: `{0-wt, 1-wt}`
gives `2-wt` and `{0-wt, 2-wt}` gives `3-wt`. -/
theorem claim_C3 :
    (∀ entries : List DirEntry,
      next_worktree_name entries
        = toString (specNextIndex entries % 2 ^ 64) ++ "-wt") ∧
    (∀ entries : List DirEntry, specNextIndex entries < 2 ^ 64 →
      next_worktree_name entries = toString (specNextIndex entries) ++ "-wt") ∧
    next_worktree_name [⟨"0-wt", true⟩, ⟨"1-wt", true⟩] = "2-wt" ∧
    next_worktree_name [⟨"0-wt", true⟩, ⟨"2-wt", true⟩] = "3-wt" ∧
    next_worktree_name [] = "0-wt" := by
  have hbase : ∀ entries : List DirEntry,
      next_worktree_name entries
        = toString (specNextIndex entries % 2 ^ 64) ++ "-wt" := by
    intro entries
    simp only [next_worktree_name, specNextIndex]
    rw [next_worktree_name_foldl_eq_max]
    cases (numberedIndices entries).max? with
    | none => simp
    | some m => rfl
  refine ⟨hbase, ?_, rfl, rfl, rfl⟩
  intro entries h
  rw [hbase entries, Nat.mod_eq_of_lt h]

/-- Witness for C3: below the overflow bound the generated name is the
claim's `{max+1}-wt`, here `3-wt` for `{0-wt, 2-wt}`. -/
theorem claim_C3_witness :
    next_worktree_name [⟨"0-wt", true⟩, ⟨"2-wt", true⟩] = "3-wt" :=
  (claim_C3.2.1 [⟨"0-wt", true⟩, ⟨"2-wt", true⟩] (by decide)).trans (by decide)

/-- C3 counterexample: the claim's unbounded `{max+1}-wt` formula fails at
the largest parseable index: for a managed directory containing
`18446744073709551615-wt` (index `2^64 - 1`), the source's `usize`
increment wraps and the generated name is `0-wt`, not the claim's
`18446744073709551616-wt`. -/
theorem claim_C3_counterexample :
    next_worktree_name [⟨"18446744073709551615-wt", true⟩] = "0-wt" ∧
    toString (specNextIndex [⟨"18446744073709551615-wt", true⟩]) ++ "-wt"
      = "18446744073709551616-wt" ∧
    next_worktree_name [⟨"18446744073709551615-wt", true⟩]
      ≠ toString (specNextIndex [⟨"18446744073709551615-wt", true⟩]) ++ "-wt" := by
  refine ⟨by decide, by decide, by decide⟩

/-- C5 (amended): validation succeeds exactly when the name decomposes into
one ordinary path component; `a/b`, `../x`, `.`, `..` and the empty string
are rejected with a user-facing error, and every nonempty
alphanumeric-with-hyphen string is accepted. (Strings whose embedded
separators normalize away, such as `a/.`, are accepted — see the
counterexample theorem.) -/
theorem claim_C5 :
    (∀ name : String, validate_worktree_name name = Except.ok () ↔
      ∃ seg, componentsOf name = [PComp.normal seg]) ∧
    validate_worktree_name "a/b" = Except.error "invalid worktree name 'a/b'" ∧
    validate_worktree_name "../x" = Except.error "invalid worktree name '../x'" ∧
    validate_worktree_name "." = Except.error "invalid worktree name '.'" ∧
    validate_worktree_name ".." = Except.error "invalid worktree name '..'" ∧
    validate_worktree_name "" = Except.error "invalid worktree name ''" ∧
    (∀ s : String, s.toList ≠ [] →
      (∀ c ∈ s.toList, c.isAlphanum = true ∨ c = '-') →
      validate_worktree_name s = Except.ok ()) := by
  refine ⟨?_, rfl, rfl, rfl, rfl, rfl, ?_⟩
  · intro name
    constructor
    · intro h
      cases hcomp : componentsOf name with
      | nil => rw [validate_worktree_name, hcomp] at h; exact absurd h (by simp)
      | cons c rest =>
        cases rest with
        | nil =>
          cases c with
          | normal seg => exact ⟨seg, hcomp ▸ rfl⟩
          | rootDir => rw [validate_worktree_name, hcomp] at h; exact absurd h (by simp)
          | curDir => rw [validate_worktree_name, hcomp] at h; exact absurd h (by simp)
          | parentDir => rw [validate_worktree_name, hcomp] at h; exact absurd h (by simp)
        | cons c' rest' =>
          rw [validate_worktree_name, hcomp] at h
          cases c <;> exact absurd h (by simp)
    · rintro ⟨seg, hcomp⟩
      rw [validate_worktree_name, hcomp]
  · intro s hne hchar
    have hsingle : componentsOf s = [PComp.normal s] := by
      refine componentsOf_single hne ?_
      intro c hc
      rcases hchar c hc with h | h
      · constructor
        · intro hslash; rw [hslash] at h; exact absurd h (by decide)
        · intro hdot; rw [hdot] at h; exact absurd h (by decide)
      · rw [h]; exact ⟨by decide, by decide⟩
    rw [validate_worktree_name, hsingle]

/-- Witness for C5: a single-segment alphanumeric-with-hyphen name
validates. -/
theorem claim_C5_witness : validate_worktree_name "feature-1" = Except.ok () :=
  claim_C5.2.2.2.2.2.2 "feature-1" (by decide) (by decide)

/-- C5 counterexample: the claim's universal "for every string containing an
embedded separator, validation fails" is false: `a/.` (and `a/`) contain an
embedded `/` yet validate successfully, because the `.` component and the
trailing empty component normalize away. -/
theorem claim_C5_counterexample :
    hasEmbeddedSeparator "a/." = true ∧
    validate_worktree_name "a/." = Except.ok () ∧
    validate_worktree_name "a/" = Except.ok () :=
  ⟨rfl, rfl, rfl⟩

/-! ## The retry driver (`src/repo.rs::git_worktree_add_with_retry`,
`git_worktree_remove_with_retry`, `is_git_lock_error`) -/

/-- `u8::to_ascii_lowercase`, characterwise. -/
def asciiLower (c : Char) : Char :=
  if 'A' ≤ c ∧ c ≤ 'Z' then Char.ofNat (c.toNat + 32) else c

/-- `str::to_ascii_lowercase`. -/
def lowerStr (s : String) : String :=
  String.mk (s.toList.map asciiLower)

/-- Is `pat` a prefix of the second list? -/
def prefixOfChars : List Char → List Char → Bool
  | [], _ => true
  | _ :: _, [] => false
  | a :: as, b :: bs => a == b && prefixOfChars as bs

/-- Does `pat` occur contiguously in the second list? -/
def infixOfChars (pat : List Char) : List Char → Bool
  | [] => pat.isEmpty
  | c :: rest => prefixOfChars pat (c :: rest) || infixOfChars pat rest

/-- Rust's `str::contains` for a string pattern. -/
def containsSub (s pat : String) : Bool :=
  infixOfChars pat.toList s.toList

theorem prefixOfChars_append (l r : List Char) :
    prefixOfChars l (l ++ r) = true := by
  induction l with
  | nil => rfl
  | cons a as ih => simp [prefixOfChars, ih]

theorem infixOfChars_append (a b : List Char) :
    infixOfChars b (a ++ b) = true := by
  induction a with
  | nil =>
    cases b with
    | nil => rfl
    | cons c rest =>
      have hpre := prefixOfChars_append (c :: rest) []
      simp only [List.append_nil] at hpre
      simp [infixOfChars, hpre]
  | cons x xs ih =>
    simp [infixOfChars, ih]

/-- A string contains every suffix of itself (in particular the empty one). -/
theorem containsSub_append_self (a b : String) :
    containsSub (a ++ b) b = true := by
  have htl : (a ++ b).toList = a.toList ++ b.toList := by
    cases a; cases b; rfl
  unfold containsSub
  rw [htl]
  exact infixOfChars_append a.toList b.toList

/-- `src/repo.rs::is_git_lock_error`: classify a git stderr as transient
lock contention by substring markers over the ASCII-lowercased text. -/
def is_git_lock_error (stderr : String) : Bool :=
  let s := lowerStr stderr
  containsSub s "index.lock"
    || containsSub s "another git process seems to be running"
    || containsSub s "could not write new index file"
    || (containsSub s "unable to create" && containsSub s "lock"
        && containsSub s ".git")

/-- `str::trim`, dropping whitespace from both ends. -/
def trimChars (cs : List Char) : List Char :=
  ((cs.dropWhile Char.isWhitespace).reverse.dropWhile Char.isWhitespace).reverse

/-- `str::trim` on strings. -/
def trimStr (s : String) : String :=
  String.mk (trimChars s.toList)

/-- The trimmed text is a contiguous substring of any string that ends
with it. -/
theorem containsSub_trim_suffix (a : String) (t : String) :
    containsSub (a ++ t) t = true :=
  containsSub_append_self a t

/-- The observable outcome of one backend invocation attempt: success, or
failure with the captured stderr text. -/
inductive Attempt where
  | ok : Attempt
  | err : String → Attempt
deriving DecidableEq, Repr

/-- The observable behaviour of the retry driver on a trace of attempts:
each element pairs the attempt's outcome with the milliseconds elapsed
since the first attempt, measured at the failure check. `sleeps` lists the
backoff delays slept, in order. `exhausted` marks a trace that ended while
the driver would still retry (the driver itself never stops retrying while
failures stay transient and within the deadline). -/
inductive RetryResult where
  | ok : List Nat → RetryResult
  | hardError : String → List Nat → RetryResult
  | exhausted : List Nat → RetryResult
deriving DecidableEq, Repr

/-- The retry loop shared by `git_worktree_add_with_retry` and
`git_worktree_remove_with_retry` (identical in the source but for the
message construction `mkMsg`): a failure classified as a transient lock
error while under the 3-second deadline sleeps the current delay and
retries with the delay doubled, capped at 500ms; any other failure returns
the constructed hard error at once. -/
def retryLoop (mkMsg : String → String) (delay : Nat) (sleeps : List Nat) :
    List (Attempt × Nat) → RetryResult
  | [] => .exhausted sleeps.reverse
  | (.ok, _) :: _ => .ok sleeps.reverse
  | (.err stderr, t) :: rest =>
    if is_git_lock_error stderr && decide (t < 3000) then
      retryLoop mkMsg (min (delay * 2) 500) (delay :: sleeps) rest
    else
      .hardError (mkMsg stderr) sleeps.reverse

/-- The hard-error text of `git worktree add`: the trimmed stderr is
appended when nonempty. -/
def addFailMsg (stderr : String) : String :=
  let t := trimStr stderr
  if t = "" then "git worktree add failed"
  else "git worktree add failed: " ++ t

/-- The hard-error text of `git worktree remove`, naming the worktree. -/
def removeFailMsg (wt : Path) (stderr : String) : String :=
  let t := trimStr stderr
  if t = "" then "git worktree remove failed for " ++ Path.display wt
  else "git worktree remove failed for " ++ Path.display wt ++ ": " ++ t

/-- `src/repo.rs::git_worktree_add_with_retry`, over an attempt trace:
initial delay 30ms, deadline 3s. -/
def git_worktree_add_with_retry (trace : List (Attempt × Nat)) : RetryResult :=
  retryLoop addFailMsg 30 [] trace

/-- `src/repo.rs::git_worktree_remove_with_retry`, over an attempt trace. -/
def git_worktree_remove_with_retry (wt : Path) (trace : List (Attempt × Nat)) :
    RetryResult :=
  retryLoop (removeFailMsg wt) 30 [] trace

/-- An attempt the driver retries past: a failure classified as transient
lock contention, checked while under the 3-second deadline. -/
def transient : Attempt × Nat → Bool
  | (.ok, _) => false
  | (.err s, t) => is_git_lock_error s && decide (t < 3000)

/-- The backoff delays after `k` retries: 30ms doubling each time, capped
at 500ms. -/
def expectedSleeps (k : Nat) : List Nat :=
  (List.range k).map (fun i => min (30 * 2 ^ i) 500)

theorem min_pow_congr {a b : Nat} (h : a = b) :
    min (30 * 2 ^ a) 500 = min (30 * 2 ^ b) 500 := by rw [h]

theorem expectedSleeps_shift (j k : Nat) :
    (List.range (k + 1)).map (fun i => min (30 * 2 ^ (j + i)) 500)
      = min (30 * 2 ^ j) 500
        :: (List.range k).map (fun i => min (30 * 2 ^ (j + 1 + i)) 500) := by
  rw [List.range_succ_eq_map, List.map_cons, List.map_map]
  congr 1
  apply List.map_congr_left
  intro a _
  simp only [Function.comp_apply]
  exact min_pow_congr (by omega)

theorem doubling_min (j : Nat) :
    min (min (30 * 2 ^ j) 500 * 2) 500 = min (30 * 2 ^ (j + 1)) 500 := by
  rcases le_or_lt (30 * 2 ^ j) 500 with h | h
  · rw [Nat.min_eq_left h, pow_succ, ← Nat.mul_assoc]
  · have h1 : 500 ≤ 30 * 2 ^ j := Nat.le_of_lt h
    have h2 : 500 ≤ 30 * 2 ^ (j + 1) := by
      calc (500 : Nat) ≤ 30 * 2 ^ j := h1
        _ ≤ 30 * 2 ^ (j + 1) :=
          Nat.mul_le_mul (Nat.le_refl 30)
            (Nat.pow_le_pow_right (by norm_num) (Nat.le_succ j))
    rw [Nat.min_eq_right h1, Nat.min_eq_right h2]
    norm_num

/-- Full characterization of the retry loop on a trace: it retries through
exactly the longest transient prefix, sleeping the doubling capped delays,
and then reports the first non-transient attempt (success, or an immediate
hard error). -/
theorem retryLoop_spec (mkMsg : String → String) (trace : List (Attempt × Nat)) :
    ∀ (j : Nat) (sleeps : List Nat),
      retryLoop mkMsg (min (30 * 2 ^ j) 500) sleeps trace =
        (match trace.dropWhile transient with
          | [] => RetryResult.exhausted
          | (Attempt.ok, _) :: _ => RetryResult.ok
          | (Attempt.err s, _) :: _ => RetryResult.hardError (mkMsg s))
          (sleeps.reverse
            ++ (List.range (trace.takeWhile transient).length).map
              (fun i => min (30 * 2 ^ (j + i)) 500)) := by
  induction trace with
  | nil =>
    intro j sleeps
    simp [retryLoop, List.dropWhile, List.takeWhile]
  | cons head rest ih =>
    intro j sleeps
    obtain ⟨a, t⟩ := head
    cases a with
    | ok =>
      have htr : transient (Attempt.ok, t) = false := rfl
      simp only [List.dropWhile_cons, List.takeWhile_cons, htr, Bool.false_eq_true,
        if_false]
      simp [retryLoop]
    | err s =>
      by_cases htr : transient (Attempt.err s, t) = true
      · have hcond : (is_git_lock_error s && decide (t < 3000)) = true := htr
        have hstep : retryLoop mkMsg (min (30 * 2 ^ j) 500) sleeps
            ((Attempt.err s, t) :: rest)
            = retryLoop mkMsg (min (min (30 * 2 ^ j) 500 * 2) 500)
              (min (30 * 2 ^ j) 500 :: sleeps) rest := by
          simp [retryLoop, hcond]
        rw [hstep, doubling_min, ih (j + 1) (min (30 * 2 ^ j) 500 :: sleeps)]
        simp only [List.dropWhile_cons, List.takeWhile_cons, htr, if_true]
        rw [List.length_cons, expectedSleeps_shift, List.reverse_cons]
        simp [List.append_assoc]
      · have hcond : ¬ ((is_git_lock_error s && decide (t < 3000)) = true) := htr
        have hfalse : transient (Attempt.err s, t) = false :=
          Bool.eq_false_iff.mpr htr
        have hstep : retryLoop mkMsg (min (30 * 2 ^ j) 500) sleeps
            ((Attempt.err s, t) :: rest)
            = RetryResult.hardError (mkMsg s) sleeps.reverse := by
          simp [retryLoop, hcond]
        rw [hstep]
        simp only [List.dropWhile_cons, List.takeWhile_cons, hfalse,
          Bool.false_eq_true, if_false]
        simp

/-- The delays slept by the retry driver on `trace`. -/
def sleepsOf (trace : List (Attempt × Nat)) : List Nat :=
  expectedSleeps (trace.takeWhile transient).length

theorem retryLoop_init (mkMsg : String → String) (trace : List (Attempt × Nat)) :
    retryLoop mkMsg 30 [] trace =
      (match trace.dropWhile transient with
        | [] => RetryResult.exhausted
        | (Attempt.ok, _) :: _ => RetryResult.ok
        | (Attempt.err s, _) :: _ => RetryResult.hardError (mkMsg s))
        (sleepsOf trace) := by
  have h := retryLoop_spec mkMsg trace 0 []
  have h30 : min (30 * 2 ^ 0) 500 = 30 := by norm_num
  rw [h30] at h
  rw [h]
  refine congrArg _ ?_
  simp [sleepsOf, expectedSleeps]

theorem dropWhile_head_not {α : Type} {p : α → Bool} {l : List α} {x : α}
    {rest : List α} (h : l.dropWhile p = x :: rest) : p x = false := by
  induction l with
  | nil => simp [List.dropWhile] at h
  | cons a as ih =>
    rw [List.dropWhile_cons] at h
    by_cases hp : p a = true
    · rw [if_pos hp] at h
      exact ih h
    · rw [if_neg hp] at h
      injection h with h1 _
      subst h1
      exact Bool.eq_false_iff.mpr hp

theorem infixOfChars_nil (r : List Char) : infixOfChars [] r = true := by
  cases r with
  | nil => rfl
  | cons c rest => simp [infixOfChars, prefixOfChars]

theorem prefixOfChars_extend {pat l : List Char} (r : List Char)
    (h : prefixOfChars pat l = true) : prefixOfChars pat (l ++ r) = true := by
  induction pat generalizing l with
  | nil => rfl
  | cons a as ih =>
    cases l with
    | nil => simp [prefixOfChars] at h
    | cons b bs =>
      simp only [prefixOfChars, Bool.and_eq_true] at h ⊢
      exact ⟨h.1, ih h.2⟩

theorem infixOfChars_append_left {pat l : List Char} (r : List Char)
    (h : infixOfChars pat l = true) : infixOfChars pat (l ++ r) = true := by
  induction l with
  | nil =>
    have : pat = [] := by
      cases pat with
      | nil => rfl
      | cons a as => simp [infixOfChars, List.isEmpty] at h
    rw [this]
    exact infixOfChars_nil r
  | cons c rest ih =>
    simp only [infixOfChars, Bool.or_eq_true] at h
    rcases h with h | h
    · have := prefixOfChars_extend (l := c :: rest) r h
      simp only [List.cons_append, infixOfChars, Bool.or_eq_true]
      left
      simpa using this
    · simp only [List.cons_append, infixOfChars, Bool.or_eq_true]
      right
      exact ih h

theorem infixOfChars_append_right {pat r : List Char} (l : List Char)
    (h : infixOfChars pat r = true) : infixOfChars pat (l ++ r) = true := by
  induction l with
  | nil => simpa using h
  | cons c rest ih =>
    simp only [List.cons_append, infixOfChars, Bool.or_eq_true]
    right
    exact ih

theorem string_toList_append (a b : String) :
    (a ++ b).toList = a.toList ++ b.toList := by
  cases a; cases b; rfl

theorem containsSub_left (a b pat : String)
    (h : containsSub a pat = true) : containsSub (a ++ b) pat = true := by
  unfold containsSub at h ⊢
  rw [string_toList_append]
  exact infixOfChars_append_left b.toList h

theorem containsSub_right (a b pat : String)
    (h : containsSub b pat = true) : containsSub (a ++ b) pat = true := by
  unfold containsSub at h ⊢
  rw [string_toList_append]
  exact infixOfChars_append_right a.toList h

theorem containsSub_empty (s : String) : containsSub s "" = true := by
  show infixOfChars [] s.toList = true
  cases s.toList with
  | nil => rfl
  | cons c rest => simp [infixOfChars, prefixOfChars]

theorem addFailMsg_contains (s : String) :
    containsSub (addFailMsg s) (trimStr s) = true := by
  by_cases h : trimStr s = ""
  · simp only [addFailMsg, h, if_true]
    exact containsSub_empty _
  · simp only [addFailMsg, h, if_false]
    exact containsSub_append_self _ _

theorem removeFailMsg_contains (wt : Path) (s : String) :
    containsSub (removeFailMsg wt s) (trimStr s) = true := by
  by_cases h : trimStr s = ""
  · simp only [removeFailMsg, h, if_true]
    exact containsSub_empty _
  · simp only [removeFailMsg, h, if_false]
    exact containsSub_append_self _ _

/-- C4: the retry driver retries exactly the failures whose stderr is
classified as transient lock contention while under the 3-second deadline,
sleeping delays that start at 30ms and double, capped at 500ms; the first
non-transient failure is returned at once as a hard error carrying the
backend's (trimmed) diagnostic text, and the classifier is the stated
substring test over the ASCII-lowercased stderr. -/
theorem claim_C4 (trace : List (Attempt × Nat)) (wt : Path) :
    (∀ e ∈ trace.takeWhile transient, ∃ s t, e = (Attempt.err s, t)
        ∧ is_git_lock_error s = true ∧ t < 3000) ∧
    sleepsOf trace = (List.range (trace.takeWhile transient).length).map
        (fun i => min (30 * 2 ^ i) 500) ∧
    (trace.dropWhile transient = [] →
      git_worktree_add_with_retry trace
        = RetryResult.exhausted (sleepsOf trace) ∧
      git_worktree_remove_with_retry wt trace
        = RetryResult.exhausted (sleepsOf trace)) ∧
    (∀ t rest, trace.dropWhile transient = (Attempt.ok, t) :: rest →
      git_worktree_add_with_retry trace = RetryResult.ok (sleepsOf trace) ∧
      git_worktree_remove_with_retry wt trace
        = RetryResult.ok (sleepsOf trace)) ∧
    (∀ s t rest, trace.dropWhile transient = (Attempt.err s, t) :: rest →
      ¬ (is_git_lock_error s = true ∧ t < 3000) ∧
      git_worktree_add_with_retry trace
        = RetryResult.hardError (addFailMsg s) (sleepsOf trace) ∧
      git_worktree_remove_with_retry wt trace
        = RetryResult.hardError (removeFailMsg wt s) (sleepsOf trace) ∧
      containsSub (addFailMsg s) (trimStr s) = true ∧
      containsSub (removeFailMsg wt s) (trimStr s) = true) ∧
    (∀ s : String, is_git_lock_error s = true ↔
      (containsSub (lowerStr s) "index.lock" = true
        ∨ containsSub (lowerStr s) "another git process seems to be running" = true
        ∨ containsSub (lowerStr s) "could not write new index file" = true
        ∨ (containsSub (lowerStr s) "unable to create" = true
            ∧ containsSub (lowerStr s) "lock" = true
            ∧ containsSub (lowerStr s) ".git" = true))) := by
  refine ⟨?_, rfl, ?_, ?_, ?_, ?_⟩
  · intro e he
    have hp := List.mem_takeWhile_imp he
    obtain ⟨a, t⟩ := e
    cases a with
    | ok => exact absurd hp (by simp [transient])
    | err s =>
      simp only [transient, Bool.and_eq_true, decide_eq_true_eq] at hp
      exact ⟨s, t, rfl, hp.1, hp.2⟩
  · intro h
    have ha := retryLoop_init addFailMsg trace
    rw [h] at ha
    have hr := retryLoop_init (removeFailMsg wt) trace
    rw [h] at hr
    exact ⟨ha, hr⟩
  · intro t rest h
    have ha := retryLoop_init addFailMsg trace
    rw [h] at ha
    have hr := retryLoop_init (removeFailMsg wt) trace
    rw [h] at hr
    exact ⟨ha, hr⟩
  · intro s t rest h
    have hfalse : transient (Attempt.err s, t) = false := dropWhile_head_not h
    refine ⟨?_, ?_, ?_, addFailMsg_contains s, removeFailMsg_contains wt s⟩
    · rintro ⟨hl, ht⟩
      have htrue : transient (Attempt.err s, t) = true := by
        simp [transient, hl, ht]
      rw [htrue] at hfalse
      exact Bool.noConfusion hfalse
    · have ha := retryLoop_init addFailMsg trace
      rw [h] at ha
      exact ha
    · have hr := retryLoop_init (removeFailMsg wt) trace
      rw [h] at hr
      exact hr
  · intro s
    simp only [is_git_lock_error, Bool.or_eq_true, Bool.and_eq_true]
    tauto

/-- Witness for C4: a trace whose first failure mentions `index.lock`
within the deadline (retried after a 30ms sleep) and whose second failure
is not transient (returned at once as the hard error). -/
theorem claim_C4_witness :
    git_worktree_add_with_retry
      [(Attempt.err "fatal: Unable to create '/r/.git/index.lock': File exists.", 100),
        (Attempt.err "fatal: boom", 200)]
      = RetryResult.hardError "git worktree add failed: fatal: boom" [30] := by
  have h := (claim_C4
    [(Attempt.err "fatal: Unable to create '/r/.git/index.lock': File exists.", 100),
      (Attempt.err "fatal: boom", 200)] ["r"]).2.2.2.2.1 "fatal: boom" 200 []
    (by decide)
  exact h.2.1.trans (by decide)

/-! ## Filesystem and backend state model -/

/-- What a path names on disk. -/
inductive FKind where
  | dir : FKind
  | file : FKind
deriving DecidableEq, Repr

/-- The filesystem, as an association list from paths to kinds. -/
abbrev FS := List (Path × FKind)

/-- Look a path up in the filesystem (first match wins). -/
def fsFind (fs : FS) (p : Path) : Option FKind :=
  match fs with
  | [] => none
  | (q, k) :: rest => if q = p then some k else fsFind rest p

/-- Observable side effects of one tool invocation, in order. -/
inductive Ev where
  | chdir : Path → Ev
  | print : String → Ev
  | lock : Path → Ev
  | fsCreateDir : Path → Ev
  | gitAdd : Path → Ev
  | gitRemove : Path → Ev
  | fsRemoveAll : Path → Ev
  | gitPrune : Ev
  | fsRemoveDir : Path → Ev
  | spawn : String → List String → Ev
  | spawnShell : Ev
deriving DecidableEq, Repr

/-- How an invocation of the tool ends: normally, with an error printed and
process exit code 1, or by an explicit `process::exit(code)`. -/
inductive Res where
  | ok : Res
  | err : String → Res
  | exit : Nat → Res
deriving DecidableEq, Repr

/-- The process exit code each outcome produces. -/
def Res.exitCode : Res → Nat
  | .ok => 0
  | .err _ => 1
  | .exit n => n

/-- The mutable world the tool acts on: the filesystem and the backend's
list of registered worktree paths (as `git worktree list` reports them). -/
structure St where
  fs : FS
  registered : List Path
deriving DecidableEq, Repr

/-- The result of running one operation: its outcome, the final world
state, and the side effects in order. -/
structure Out where
  res : Res
  st : St
  evs : List Ev
deriving DecidableEq, Repr

/-- How a launched child process ended: with an exit code, or killed by a
signal (no code — Rust's `status.code()` is `None`). -/
inductive ChildStatus where
  | code : Nat → ChildStatus
  | signal : ChildStatus
deriving DecidableEq, Repr

/-- `ExitStatus::success`. -/
def ChildStatus.success : ChildStatus → Bool
  | .code n => n == 0
  | .signal => false

/-- `status.code().unwrap_or(1)`. -/
def ChildStatus.exitOr1 : ChildStatus → Nat
  | .code n => n
  | .signal => 1

/-- `src/repo.rs::CommandSpec`: an external command to run in a worktree. -/
structure CommandSpec where
  program : String
  args : List String
deriving DecidableEq, Repr

/-- `CommandSpec::from_tail`: first token is the program, rest the args. -/
def CommandSpec.from_tail (tail : List String) : Option CommandSpec :=
  match tail with
  | [] => none
  | program :: rest => some ⟨program, rest⟩

/-! ## Configuration (`src/config.rs`) -/

/-- One tool's entry in the configuration file. -/
structure CommandConfig where
  args : List String
  replace_defaults : Bool
deriving DecidableEq, Repr

/-- The loaded configuration: a map (association list with distinct keys in
the TOML source) from tool name to its entry. -/
structure Config where
  commands : List (String × CommandConfig)
deriving DecidableEq, Repr

/-- `Config::default()` (serde's `Default` derive): no entries. -/
def Config.default : Config := ⟨[]⟩

/-- Map lookup over the `commands` table. -/
def lookupCommand (cmds : List (String × CommandConfig)) (name : String) :
    Option CommandConfig :=
  match cmds with
  | [] => none
  | (k, v) :: rest => if k = name then some v else lookupCommand rest name

/-- `src/config.rs::builtin_command_args`: built-in default arguments per
known tool identifier; unknown identifiers have none. -/
def builtin_command_args (name : String) : List String :=
  if name = "codex" then ["--dangerously-bypass-approvals-and-sandbox"]
  else if name = "claude" then ["--dangerously-skip-permissions"]
  else []

/-- `Config::command_args`: built-in defaults (unless the entry sets
`replace_defaults`), then the entry's args, then the user-supplied extra
args. -/
def Config.command_args (c : Config) (name : String) (extra : List String) :
    List String :=
  let command := lookupCommand c.commands name
  let replace_defaults := match command with
    | some cmd => cmd.replace_defaults
    | none => false
  let args0 : List String :=
    if replace_defaults then [] else builtin_command_args name
  let args1 := args0 ++ (match command with
    | some cmd => cmd.args
    | none => [])
  args1 ++ extra

/-! ## The repository context and environment -/

/-- `src/repo.rs::Repo`: the discovered repository. -/
structure RepoCtx where
  root : Path
  gitCommonDir : Path

/-- `root/.worktrees`, the managed worktrees directory. -/
def RepoCtx.worktreesDir (r : RepoCtx) : Path := r.root ++ [".worktrees"]

/-- The outcomes of the external interactions an invocation may perform,
supplied as parameters of the model: repository discovery, the retry-driver
results for backend add/remove, the exit statuses of the launched command
and shell, and the configuration-file load. -/
structure Env where
  discover : Option RepoCtx
  addResult : Except String Unit
  removeResult : Path → Except String Unit
  childResult : Except String ChildStatus
  shellResult : Except String ChildStatus
  configLoad : Except String Config

/-! ## Process launching (`src/repo.rs::enter_worktree`, `run_shell`) -/

/-- `src/repo.rs::run_shell`: spawn the interactive shell in `dest`; a
non-zero shell exit becomes `process::exit` with the same code
(`unwrap_or(1)` for a signal). -/
def run_shell (env : Env) : Res × List Ev :=
  match env.shellResult with
  | .error _ => (.err "failed to run shell", [Ev.spawnShell])
  | .ok status =>
    if status.success then (.ok, [Ev.spawnShell])
    else (.exit status.exitOr1, [Ev.spawnShell])

/-- `src/repo.rs::Repo::enter_worktree`: change into `dest`, print it, then
either run the given command — propagating a non-zero exit code via
`process::exit` — or run the interactive shell. -/
def enter_worktree (dest : Path) (command : Option CommandSpec) (env : Env)
    (st : St) : Out :=
  let evs0 := [Ev.chdir dest, Ev.print (Path.display dest)]
  match command with
  | some c =>
    let evs := evs0 ++ [Ev.spawn c.program c.args]
    match env.childResult with
    | .error _ => ⟨.err ("failed to run " ++ c.program), st, evs⟩
    | .ok status =>
      if status.success then ⟨.ok, st, evs⟩
      else ⟨.exit status.exitOr1, st, evs⟩
  | none =>
    let shellOut := run_shell env
    ⟨shellOut.1, st, evs0 ++ shellOut.2⟩

/-! ## Create and switch (`src/repo.rs::create_worktree`, `switch_worktree`) -/

/-- `fs::create_dir_all` for the managed directory: a no-op when it already
exists as a directory, an error when a non-directory stands in the way.
(Ancestor creation is elided: the repository root exists.) -/
def createDirAll (p : Path) (fs : FS) : Except String (FS × List Ev) :=
  match fsFind fs p with
  | some FKind.dir => .ok (fs, [])
  | some FKind.file => .error ("failed to create " ++ Path.display p)
  | none => .ok ((p, FKind.dir) :: fs, [Ev.fsCreateDir p])

/-- The immediate children of `dir` in the filesystem, as `read_dir`
entries (name and directory flag). -/
def childEntriesOf (dir : Path) (fs : FS) : List DirEntry :=
  fs.filterMap (fun e =>
    if e.1.length = dir.length + 1 && isUnder dir e.1 then
      some ⟨e.1.getLastD "", decide (e.2 = FKind.dir)⟩
    else none)

/-- Name resolution inside `create_worktree`: validate a given name, or
generate the next `<n>-wt` name from the managed directory's entries. -/
def resolveName (wtDir : Path) (fs : FS) (name? : Option String) :
    Except String String :=
  match name? with
  | some n =>
    match validate_worktree_name n with
    | .ok _ => .ok n
    | .error e => .error e
  | none => .ok (next_worktree_name (childEntriesOf wtDir fs))

/-- `src/repo.rs::Repo::create_worktree`: ensure the managed directory,
resolve the name, refuse an existing target path (directory: "already
exists"; non-directory: "not a directory"), then under the repository lock
run the backend add through the retry driver and enter the worktree. -/
def create_worktree (r : RepoCtx) (env : Env) (name? : Option String)
    (command : Option CommandSpec) (st : St) : Out :=
  let wtDir := r.worktreesDir
  match createDirAll wtDir st.fs with
  | .error e => ⟨.err e, st, []⟩
  | .ok (fs1, evs1) =>
    match resolveName wtDir fs1 name? with
    | .error e => ⟨.err e, ⟨fs1, st.registered⟩, evs1⟩
    | .ok name =>
      let dest := wtDir ++ [name]
      match fsFind fs1 dest with
      | some FKind.dir =>
        ⟨.err ("worktree '" ++ name ++ "' already exists"),
          ⟨fs1, st.registered⟩, evs1⟩
      | some FKind.file =>
        ⟨.err ("worktree path exists and is not a directory: "
            ++ Path.display dest),
          ⟨fs1, st.registered⟩, evs1⟩
      | none =>
        let evs2 := evs1
          ++ [Ev.lock (r.gitCommonDir ++ ["worktree-tool.lock"]),
            Ev.gitAdd dest]
        match env.addResult with
        | .error e => ⟨.err e, ⟨fs1, st.registered⟩, evs2⟩
        | .ok _ =>
          let st2 : St :=
            ⟨(dest, FKind.dir) :: fs1, dest :: st.registered⟩
          let entered := enter_worktree dest command env st2
          ⟨entered.res, entered.st, evs2 ++ entered.evs⟩

/-- `src/repo.rs::Repo::switch_worktree`: validate, then enter the managed
directory of that name if it is an existing directory. -/
def switch_worktree (r : RepoCtx) (env : Env) (name : String)
    (command : Option CommandSpec) (st : St) : Out :=
  match validate_worktree_name name with
  | .error e => ⟨.err e, st, []⟩
  | .ok _ =>
    let dest := r.worktreesDir ++ [name]
    match fsFind st.fs dest with
    | some FKind.dir => enter_worktree dest command env st
    | _ => ⟨.err ("worktree '" ++ name ++ "' does not exist"), st, []⟩

/-- `src/repo.rs::Repo::list`: nothing when the managed directory is
absent; else print the subdirectory names sorted. -/
def listWorktrees (r : RepoCtx) (st : St) : Out :=
  match fsFind st.fs r.worktreesDir with
  | none => ⟨.ok, st, []⟩
  | some FKind.file =>
    ⟨.err ("failed to read " ++ Path.display r.worktreesDir), st, []⟩
  | some FKind.dir =>
    let names :=
      ((childEntriesOf r.worktreesDir st.fs).filter (·.isDir)).map (·.name)
    ⟨.ok, st, (names.insertionSort (· ≤ ·)).map Ev.print⟩

/-! ## Clear (`src/repo.rs::Repo::clear`, `remove_dir_if_empty`) -/

/-- Effect of a successful `git worktree remove --force <w>`: the
registration for `w` is dropped and `w`'s directory tree is deleted. -/
def gitWorktreeRemoveState (w : Path) (st : St) : St :=
  ⟨st.fs.filter (fun e => !(isUnder w e.1)),
    st.registered.filter (fun q => decide (q ≠ w))⟩

/-- The bulk-removal loop of `clear`: for each managed worktree run the
backend remove through the retry driver; a hard error propagates at once
(`?` in the source) with the state mutated so far. -/
def removeLoop (env : Env) (ws : List Path) (st : St) (evs : List Ev) :
    Option String × St × List Ev :=
  match ws with
  | [] => (none, st, evs)
  | w :: rest =>
    match env.removeResult w with
    | .ok _ =>
      removeLoop env rest (gitWorktreeRemoveState w st) (evs ++ [Ev.gitRemove w])
    | .error m => (some m, st, evs ++ [Ev.gitRemove w])

/-- The same loop run to completion with every removal succeeding. -/
def removeAllPure (ws : List Path) (st : St) : St :=
  ws.foldl (fun s w => gitWorktreeRemoveState w s) st

/-- Does any strict descendant of `p` exist? -/
def fsHasChild (fs : FS) (p : Path) : Bool :=
  fs.any (fun e => isUnder p e.1 && decide (e.1 ≠ p))

/-- `src/repo.rs::remove_dir_if_empty`: remove the directory only when it
exists and has no entries. -/
def remove_dir_if_empty (p : Path) (fs : FS) : FS × List Ev :=
  match fsFind fs p with
  | some FKind.dir =>
    if fsHasChild fs p then (fs, [])
    else (fs.filter (fun e => decide (e.1 ≠ p)), [Ev.fsRemoveDir p])
  | _ => (fs, [])

/-- The filesystem after `clear`'s recursive delete of the managed
directory: if it exists, everything at or below it is removed. -/
def fsAfterRemoveAll (r : RepoCtx) (fs : FS) : FS :=
  if (fsFind fs r.worktreesDir).isSome
  then fs.filter (fun e => !(isUnder r.worktreesDir e.1)) else fs

/-- The state after `clear`'s post-loop steps: recursive delete of the
managed directory if present, `git worktree prune` (dropping registrations
whose directory is gone), and removal of the three now-empty backend
bookkeeping directories. -/
def stateAfterClear (r : RepoCtx) (st1 : St) : St :=
  ⟨(remove_dir_if_empty (r.gitCommonDir ++ ["logs", "refs", "worktree"])
      (remove_dir_if_empty (r.gitCommonDir ++ ["refs", "worktree"])
        (remove_dir_if_empty (r.gitCommonDir ++ ["worktrees"])
          (fsAfterRemoveAll r st1.fs)).1).1).1,
    st1.registered.filter (fun q => (fsFind (fsAfterRemoveAll r st1.fs) q).isSome)⟩

/-- The events of `clear`'s post-loop steps. -/
def eventsAfterClear (r : RepoCtx) (st1 : St) : List Ev :=
  let evs2 : List Ev := if (fsFind st1.fs r.worktreesDir).isSome
    then [Ev.fsRemoveAll r.worktreesDir] else []
  let fs2 := fsAfterRemoveAll r st1.fs
  let r4 := remove_dir_if_empty (r.gitCommonDir ++ ["worktrees"]) fs2
  let r5 := remove_dir_if_empty (r.gitCommonDir ++ ["refs", "worktree"]) r4.1
  let r6 :=
    remove_dir_if_empty (r.gitCommonDir ++ ["logs", "refs", "worktree"]) r5.1
  evs2 ++ [Ev.gitPrune] ++ r4.2 ++ r5.2 ++ r6.2

/-- `src/repo.rs::Repo::clear`: change to the root, and under the
repository lock remove every backend-reported worktree whose path starts
with the managed directory, delete the managed directory recursively,
prune, trim empty bookkeeping directories; finally run a shell at the
root. -/
def clear (r : RepoCtx) (env : Env) (st : St) : Out :=
  let wtDir := r.worktreesDir
  let evs0 := [Ev.chdir r.root, Ev.lock (r.gitCommonDir ++ ["worktree-tool.lock"])]
  let managed := st.registered.filter (fun w => isUnder wtDir w)
  match removeLoop env managed st evs0 with
  | (some m, st1, evs1) => ⟨.err m, st1, evs1⟩
  | (none, st1, evs1) =>
    let shellOut := run_shell env
    ⟨shellOut.1, stateAfterClear r st1, evs1 ++ eventsAfterClear r st1 ++ shellOut.2⟩

/-! ## Command dispatch (`src/app.rs`) -/

/-- A tool subcommand (`codex create|switch`, `claude create|switch`). -/
inductive ToolCmd where
  | create : Option String → List String → ToolCmd
  | switch : String → List String → ToolCmd

/-- The CLI commands that operate on a repository (`init` never discovers a
repository and is out of scope here). -/
inductive Cmd where
  | create : Option String → List String → Cmd
  | switch : String → Cmd
  | codex : ToolCmd → Cmd
  | claude : ToolCmd → Cmd
  | list : Cmd
  | clear : Cmd

/-- `src/app.rs::not_in_repo`: print an informational line and return
`Ok(())`. -/
def notInRepoOut (st : St) : Out :=
  ⟨.ok, st, [Ev.print "not in a git repo, doing nothing"]⟩

/-- `Config::load().unwrap_or_default()`. -/
def configUsed (load : Except String Config) : Config :=
  match load with
  | .ok c => c
  | .error _ => Config.default

/-- The `CommandSpec` `run_tool` builds for a named tool. -/
def tool_spec (load : Except String Config) (name : String)
    (extra : List String) : CommandSpec :=
  ⟨name, (configUsed load).command_args name extra⟩

/-- `src/app.rs::run_tool`: discover the repository (informational no-op
outside one), load the configuration — silently falling back to the default
on any load failure — and create or switch with the resolved command. -/
def run_tool (name : String) (tc : ToolCmd) (env : Env) (st : St) : Out :=
  match env.discover with
  | none => notInRepoOut st
  | some repo =>
    match tc with
    | .create nm extra =>
      create_worktree repo env nm (some (tool_spec env.configLoad name extra)) st
    | .switch nm extra =>
      switch_worktree repo env nm (some (tool_spec env.configLoad name extra)) st

/-- `src/app.rs::run`: dispatch one CLI command; every repository-touching
command first discovers the repository and is an informational no-op
outside one. -/
def app_run (cmd : Cmd) (env : Env) (st : St) : Out :=
  match cmd with
  | .create name tail =>
    match env.discover with
    | none => notInRepoOut st
    | some repo => create_worktree repo env name (CommandSpec.from_tail tail) st
  | .switch name =>
    match env.discover with
    | none => notInRepoOut st
    | some repo => switch_worktree repo env name none st
  | .codex tc => run_tool "codex" tc env st
  | .claude tc => run_tool "claude" tc env st
  | .list =>
    match env.discover with
    | none => notInRepoOut st
    | some repo => listWorktrees repo st
  | .clear =>
    match env.discover with
    | none => notInRepoOut st
    | some repo => clear repo env st

/-! ## Lemmas about clear's state pipeline -/

theorem isUnder_append (p q : Path) : isUnder p (p ++ q) = true := by
  induction p with
  | nil => rfl
  | cons a as ih => simp [isUnder, ih]

theorem fsFind_filter_key (g : Path → Bool) (fs : FS) (p : Path) :
    fsFind (fs.filter (fun e => g e.1)) p
      = if g p then fsFind fs p else none := by
  induction fs with
  | nil => cases hg : g p <;> simp [fsFind, hg]
  | cons e rest ih =>
    obtain ⟨q, k⟩ := e
    by_cases hq : q = p
    · subst hq
      cases hg : g q with
      | true => simp [List.filter_cons, hg, fsFind]
      | false => simp [List.filter_cons, hg, fsFind, ih]
    · cases hg : g q with
      | true => simp [List.filter_cons, hg, fsFind, hq, ih]
      | false => simp [List.filter_cons, hg, fsFind, hq, ih]

theorem removeLoop_ok (env : Env) (ws : List Path) (st : St) (evs : List Ev)
    (hok : ∀ u ∈ ws, env.removeResult u = .ok ()) :
    removeLoop env ws st evs
      = (none, removeAllPure ws st, evs ++ ws.map Ev.gitRemove) := by
  induction ws generalizing st evs with
  | nil => simp [removeLoop, removeAllPure]
  | cons u rest ih =>
    have hu : env.removeResult u = .ok () := hok u (List.mem_cons_self u rest)
    simp only [removeLoop, hu]
    rw [ih (gitWorktreeRemoveState u st) (evs ++ [Ev.gitRemove u])
      (fun v hv => hok v (List.mem_cons_of_mem u hv))]
    simp [removeAllPure, List.append_assoc]

theorem removeAllPure_fs (ws : List Path) (st : St) (p : Path) :
    fsFind (removeAllPure ws st).fs p
      = if ws.any (fun u => isUnder u p) then none else fsFind st.fs p := by
  induction ws generalizing st with
  | nil => simp [removeAllPure]
  | cons u rest ih =>
    have hstep : removeAllPure (u :: rest) st
        = removeAllPure rest (gitWorktreeRemoveState u st) := by
      simp [removeAllPure]
    rw [hstep, ih]
    have hgit : fsFind (gitWorktreeRemoveState u st).fs p
        = if isUnder u p then none else fsFind st.fs p := by
      have hf := fsFind_filter_key (fun q => !isUnder u q) st.fs p
      simp only [gitWorktreeRemoveState]
      rw [hf]
      cases hiu : isUnder u p <;> simp [hiu]
    rw [hgit]
    cases hu : isUnder u p <;> simp [List.any_cons, hu]

theorem removeAllPure_registered (ws : List Path) (st : St) (q : Path) :
    q ∈ (removeAllPure ws st).registered ↔ q ∈ st.registered ∧ q ∉ ws := by
  induction ws generalizing st with
  | nil => simp [removeAllPure]
  | cons u rest ih =>
    have hstep : removeAllPure (u :: rest) st
        = removeAllPure rest (gitWorktreeRemoveState u st) := by
      simp [removeAllPure]
    rw [hstep, ih]
    simp only [gitWorktreeRemoveState, List.mem_filter, decide_eq_true_eq,
      List.mem_cons]
    tauto

theorem fsAfterRemoveAll_none (r : RepoCtx) (fs : FS) (w : Path)
    (h : fsFind fs w = none) : fsFind (fsAfterRemoveAll r fs) w = none := by
  unfold fsAfterRemoveAll
  by_cases hp : (fsFind fs r.worktreesDir).isSome
  · rw [if_pos hp]
    have hf := fsFind_filter_key (fun q => !isUnder r.worktreesDir q) fs w
    rw [hf]
    simp [h]
  · rw [if_neg hp]
    exact h

theorem fsAfterRemoveAll_keep (r : RepoCtx) (fs : FS) (w : Path)
    (hwt : isUnder r.worktreesDir w = false) :
    fsFind (fsAfterRemoveAll r fs) w = fsFind fs w := by
  unfold fsAfterRemoveAll
  by_cases hp : (fsFind fs r.worktreesDir).isSome
  · rw [if_pos hp]
    have hf := fsFind_filter_key (fun q => !isUnder r.worktreesDir q) fs w
    rw [hf]
    simp [hwt]
  · rw [if_neg hp]

theorem remove_dir_if_empty_ne (p : Path) (fs : FS) (w : Path) (h : w ≠ p) :
    fsFind (remove_dir_if_empty p fs).1 w = fsFind fs w := by
  unfold remove_dir_if_empty
  cases hf : fsFind fs p with
  | none => rfl
  | some k =>
    cases k with
    | dir =>
      by_cases hc : fsHasChild fs p
      · simp [hc]
      · rw [if_neg hc]
        have hf := fsFind_filter_key (fun q => decide (q ≠ p)) fs w
        rw [hf]
        simp [h]
    | file => rfl

theorem remove_dir_if_empty_none (p : Path) (fs : FS) (w : Path)
    (h : fsFind fs w = none) : fsFind (remove_dir_if_empty p fs).1 w = none := by
  unfold remove_dir_if_empty
  cases hf : fsFind fs p with
  | none => exact h
  | some k =>
    cases k with
    | dir =>
      by_cases hc : fsHasChild fs p
      · simp [hc, h]
      · rw [if_neg hc]
        have hf := fsFind_filter_key (fun q => decide (q ≠ p)) fs w
        rw [hf]
        simp [h]
    | file => exact h

theorem stateAfterClear_none (r : RepoCtx) (st1 : St) (w : Path)
    (hreg : w ∉ st1.registered) (hfs : fsFind st1.fs w = none) :
    w ∉ (stateAfterClear r st1).registered ∧
    fsFind (stateAfterClear r st1).fs w = none := by
  constructor
  · intro hmem
    have h : w ∈ st1.registered.filter
        (fun q => (fsFind (fsAfterRemoveAll r st1.fs) q).isSome) := hmem
    exact hreg (List.mem_filter.mp h).1
  · have h2 := fsAfterRemoveAll_none r st1.fs w hfs
    have h4 := remove_dir_if_empty_none (r.gitCommonDir ++ ["worktrees"]) _ w h2
    have h5 := remove_dir_if_empty_none (r.gitCommonDir ++ ["refs", "worktree"])
      _ w h4
    exact remove_dir_if_empty_none
      (r.gitCommonDir ++ ["logs", "refs", "worktree"]) _ w h5

theorem stateAfterClear_keep (r : RepoCtx) (st1 : St) (w : Path)
    (hreg : w ∈ st1.registered) (hfs : fsFind st1.fs w = some FKind.dir)
    (hwt : isUnder r.worktreesDir w = false)
    (hgcd : isUnder r.gitCommonDir w = false) :
    w ∈ (stateAfterClear r st1).registered ∧
    fsFind (stateAfterClear r st1).fs w = some FKind.dir := by
  have hfs2 : fsFind (fsAfterRemoveAll r st1.fs) w = some FKind.dir := by
    rw [fsAfterRemoveAll_keep r st1.fs w hwt]
    exact hfs
  have hbook : ∀ suffix : Path, w ≠ r.gitCommonDir ++ suffix := by
    intro suffix he
    have h : isUnder r.gitCommonDir w = true := by
      rw [he]
      exact isUnder_append _ _
    rw [hgcd] at h
    exact Bool.noConfusion h
  constructor
  · show w ∈ st1.registered.filter
      (fun q => (fsFind (fsAfterRemoveAll r st1.fs) q).isSome)
    exact List.mem_filter.mpr ⟨hreg, by rw [hfs2]; rfl⟩
  · show fsFind (remove_dir_if_empty (r.gitCommonDir ++ ["logs", "refs", "worktree"])
        (remove_dir_if_empty (r.gitCommonDir ++ ["refs", "worktree"])
          (remove_dir_if_empty (r.gitCommonDir ++ ["worktrees"])
            (fsAfterRemoveAll r st1.fs)).1).1).1 w = some FKind.dir
    rw [remove_dir_if_empty_ne _ _ w (hbook ["logs", "refs", "worktree"]),
      remove_dir_if_empty_ne _ _ w (hbook ["refs", "worktree"]),
      remove_dir_if_empty_ne _ _ w (hbook ["worktrees"]), hfs2]

/-! ## Claim theorems over the integrated model -/

/-- C9: the resolved argument list for a configured tool is the built-in
defaults, then the user-config args, then the user-supplied extras; with
`replace_defaults` the built-ins are omitted; unknown tools with no config
entry contribute nothing beyond the extras. -/
theorem claim_C9 (cfg : Config) (name : String) (extra : List String) :
    (Config.command_args cfg name extra
      = match lookupCommand cfg.commands name with
        | some cmd =>
          if cmd.replace_defaults then cmd.args ++ extra
          else builtin_command_args name ++ cmd.args ++ extra
        | none => builtin_command_args name ++ extra) ∧
    builtin_command_args "codex" = ["--dangerously-bypass-approvals-and-sandbox"] ∧
    builtin_command_args "claude" = ["--dangerously-skip-permissions"] ∧
    (name ≠ "codex" → name ≠ "claude" → lookupCommand cfg.commands name = none →
      Config.command_args cfg name extra = extra) := by
  refine ⟨?_, rfl, rfl, ?_⟩
  · cases hc : lookupCommand cfg.commands name with
    | none => simp [Config.command_args, hc]
    | some cmd =>
      by_cases hr : cmd.replace_defaults
      · simp [Config.command_args, hc, hr]
      · simp [Config.command_args, hc, hr]
  · intro h1 h2 hc
    simp [Config.command_args, hc, builtin_command_args, h1, h2]

/-- Witness for C9 at a tool with no built-ins and no config entry. -/
theorem claim_C9_witness :
    Config.command_args ⟨[]⟩ "mytool" ["--a"] = ["--a"] :=
  (claim_C9 ⟨[]⟩ "mytool" ["--a"]).2.2.2 (by decide) (by decide) rfl

/-- C10: when loading the configuration fails for any reason, the tool
commands silently use the default (empty) configuration — so built-in
defaults plus the user extras — and behave exactly as if the default
configuration had loaded; the load failure is never surfaced. -/
theorem claim_C10 (env : Env) (st : St) (tc : ToolCmd) (e : String)
    (hload : env.configLoad = .error e) :
    configUsed env.configLoad = Config.default ∧
    (∀ name extra, tool_spec env.configLoad name extra
      = ⟨name, builtin_command_args name ++ extra⟩) ∧
    app_run (Cmd.codex tc) env st
      = app_run (Cmd.codex tc)
          ⟨env.discover, env.addResult, env.removeResult, env.childResult,
            env.shellResult, .ok Config.default⟩ st ∧
    app_run (Cmd.claude tc) env st
      = app_run (Cmd.claude tc)
          ⟨env.discover, env.addResult, env.removeResult, env.childResult,
            env.shellResult, .ok Config.default⟩ st := by
  obtain ⟨d, a, rr, c, sh, l⟩ := env
  have hl : l = Except.error e := hload
  subst hl
  refine ⟨rfl, ?_, rfl, rfl⟩
  intro name extra
  simp [tool_spec, configUsed, Config.default, Config.command_args, lookupCommand]

/-- Witness for C10: a failing load yields the built-in codex default plus
the extra argument. -/
theorem claim_C10_witness :
    tool_spec (Except.error "no config file") "codex" ["--x"]
      = ⟨"codex", ["--dangerously-bypass-approvals-and-sandbox", "--x"]⟩ := by
  have h := (claim_C10
    ⟨none, .ok (), fun _ => .ok (), .ok (.code 0), .ok (.code 0),
      .error "no config file"⟩
    ⟨[], []⟩ (ToolCmd.create none []) "no config file" rfl).2.1 "codex" ["--x"]
  exact h.trans (by decide)

/-- C8: every repository-touching command invoked where discovery reports
no repository prints one informational line, leaves the world unchanged,
and exits successfully with code 0. -/
theorem claim_C8 (cmd : Cmd) (env : Env) (st : St)
    (hnone : env.discover = none) :
    app_run cmd env st
      = ⟨Res.ok, st, [Ev.print "not in a git repo, doing nothing"]⟩ ∧
    (app_run cmd env st).res.exitCode = 0 ∧
    (app_run cmd env st).st = st := by
  have h : app_run cmd env st = notInRepoOut st := by
    cases cmd <;> simp [app_run, run_tool, hnone]
  exact ⟨h, by rw [h]; rfl, by rw [h]; rfl⟩

/-- Witness for C8 at the clear command outside any repository. -/
theorem claim_C8_witness :
    app_run Cmd.clear
      ⟨none, .ok (), fun _ => .ok (), .ok (.code 0), .ok (.code 0),
        .ok Config.default⟩ ⟨[], []⟩
      = ⟨Res.ok, ⟨[], []⟩, [Ev.print "not in a git repo, doing nothing"]⟩ :=
  (claim_C8 Cmd.clear
    ⟨none, .ok (), fun _ => .ok (), .ok (.code 0), .ok (.code 0),
      .ok Config.default⟩ ⟨[], []⟩ rfl).1

/-- C7: a launched child command that runs and exits with a non-zero code
`n` makes the whole tool exit with that same code `n`, with no extra
message printed for it and no interactive shell launched afterwards. -/
theorem claim_C7 (dest : Path) (c : CommandSpec) (env : Env) (st : St)
    (n : Nat) (hchild : env.childResult = .ok (ChildStatus.code n))
    (hn : n ≠ 0) :
    enter_worktree dest (some c) env st
      = ⟨Res.exit n, st, [Ev.chdir dest, Ev.print (Path.display dest),
          Ev.spawn c.program c.args]⟩ ∧
    (enter_worktree dest (some c) env st).res.exitCode = n ∧
    Ev.spawnShell ∉ (enter_worktree dest (some c) env st).evs := by
  have hmain : enter_worktree dest (some c) env st
      = ⟨Res.exit n, st, [Ev.chdir dest, Ev.print (Path.display dest),
          Ev.spawn c.program c.args]⟩ := by
    simp [enter_worktree, hchild, ChildStatus.success, ChildStatus.exitOr1, hn]
  refine ⟨hmain, by rw [hmain]; rfl, by rw [hmain]; simp⟩

/-- Witness for C7: a command exiting 42 makes the tool exit 42 with no
shell launch. -/
theorem claim_C7_witness :
    enter_worktree ["r", ".worktrees", "feature"]
      (some ⟨"wt-cmd", ["--flag"]⟩)
      ⟨none, .ok (), fun _ => .ok (), .ok (.code 42), .ok (.code 0),
        .ok Config.default⟩ ⟨[], []⟩
      = ⟨Res.exit 42, ⟨[], []⟩,
          [Ev.chdir ["r", ".worktrees", "feature"],
            Ev.print "r/.worktrees/feature",
            Ev.spawn "wt-cmd" ["--flag"]]⟩ := by
  have h := (claim_C7 ["r", ".worktrees", "feature"] ⟨"wt-cmd", ["--flag"]⟩
    ⟨none, .ok (), fun _ => .ok (), .ok (.code 42), .ok (.code 0),
      .ok Config.default⟩ ⟨[], []⟩ 42 rfl (by decide)).1
  exact h.trans (by decide)

/-- C2: a create invocation whose resolved target path already exists fails
before any backend or filesystem mutation — "already exists" when the path
is a directory, "not a directory" otherwise — with the world unchanged and
no events at all (no backend add, no filesystem change). -/
theorem claim_C2 (r : RepoCtx) (env : Env) (st : St) (name? : Option String)
    (command : Option CommandSpec) (n : String) (k : FKind)
    (hwt : fsFind st.fs r.worktreesDir = some FKind.dir)
    (hres : resolveName r.worktreesDir st.fs name? = .ok n)
    (hex : fsFind st.fs (r.worktreesDir ++ [n]) = some k) :
    create_worktree r env name? command st
      = ⟨Res.err (if k = FKind.dir then "worktree '" ++ n ++ "' already exists"
          else "worktree path exists and is not a directory: "
            ++ Path.display (r.worktreesDir ++ [n])), st, []⟩ ∧
    (k = FKind.dir →
      containsSub ("worktree '" ++ n ++ "' already exists")
        "already exists" = true) ∧
    (k = FKind.file →
      containsSub ("worktree path exists and is not a directory: "
          ++ Path.display (r.worktreesDir ++ [n]))
        "is not a directory" = true) := by
  have h1 : createDirAll r.worktreesDir st.fs = .ok (st.fs, []) := by
    simp [createDirAll, hwt]
  refine ⟨?_, ?_, ?_⟩
  · cases k with
    | dir => simp [create_worktree, h1, hres, hex]
    | file => simp [create_worktree, h1, hres, hex]
  · intro _
    exact containsSub_right _ _ _ (by decide)
  · intro _
    exact containsSub_left _ _ _ (by decide)

/-- Witness for C2: creating `feature` when it already exists fails with
the "already exists" error, changes nothing and performs no backend add. -/
theorem claim_C2_witness :
    create_worktree ⟨["r"], ["r", ".git"]⟩
      ⟨some ⟨["r"], ["r", ".git"]⟩, .ok (), fun _ => .ok (), .ok (.code 0),
        .ok (.code 0), .ok Config.default⟩
      (some "feature") none
      ⟨[(["r"], FKind.dir), (["r", ".worktrees"], FKind.dir),
          (["r", ".worktrees", "feature"], FKind.dir)],
        [["r"], ["r", ".worktrees", "feature"]]⟩
      = ⟨Res.err "worktree 'feature' already exists",
          ⟨[(["r"], FKind.dir), (["r", ".worktrees"], FKind.dir),
              (["r", ".worktrees", "feature"], FKind.dir)],
            [["r"], ["r", ".worktrees", "feature"]]⟩, []⟩ := by
  have h := (claim_C2 ⟨["r"], ["r", ".git"]⟩
    ⟨some ⟨["r"], ["r", ".git"]⟩, .ok (), fun _ => .ok (), .ok (.code 0),
      .ok (.code 0), .ok Config.default⟩
    ⟨[(["r"], FKind.dir), (["r", ".worktrees"], FKind.dir),
        (["r", ".worktrees", "feature"], FKind.dir)],
      [["r"], ["r", ".worktrees", "feature"]]⟩
    (some "feature") none "feature" FKind.dir rfl rfl rfl).1
  exact h.trans (by decide)

/-- C1: during clear, with the backend removals succeeding, a
backend-reported worktree is removed — backend registration and on-disk
directory — exactly when its path lies under `root/.worktrees`; every
registered worktree not under it (and not inside the backend's metadata
directory, where only empty bookkeeping directories are trimmed) keeps both
its registration and its directory. -/
theorem claim_C1 (r : RepoCtx) (env : Env) (st : St) (w : Path)
    (hok : ∀ u ∈ st.registered, isUnder r.worktreesDir u = true →
      env.removeResult u = .ok ())
    (hw : w ∈ st.registered) :
    (isUnder r.worktreesDir w = true →
      w ∉ (clear r env st).st.registered ∧
      fsFind (clear r env st).st.fs w = none) ∧
    (isUnder r.worktreesDir w = false →
      isUnder r.gitCommonDir w = false →
      fsFind st.fs w = some FKind.dir →
      w ∈ (clear r env st).st.registered ∧
      fsFind (clear r env st).st.fs w = some FKind.dir) := by
  have hmok : ∀ u ∈ st.registered.filter (fun u => isUnder r.worktreesDir u),
      env.removeResult u = .ok () := by
    intro u hu
    rw [List.mem_filter] at hu
    exact hok u hu.1 hu.2
  have hml := removeLoop_ok env
    (st.registered.filter (fun u => isUnder r.worktreesDir u)) st
    [Ev.chdir r.root, Ev.lock (r.gitCommonDir ++ ["worktree-tool.lock"])] hmok
  have hst : (clear r env st).st
      = stateAfterClear r (removeAllPure
          (st.registered.filter (fun u => isUnder r.worktreesDir u)) st) := by
    simp [clear, hml]
  constructor
  · intro hwt
    have hwm : w ∈ st.registered.filter (fun u => isUnder r.worktreesDir u) :=
      List.mem_filter.mpr ⟨hw, hwt⟩
    have hreg1 : w ∉ (removeAllPure
        (st.registered.filter (fun u => isUnder r.worktreesDir u))
        st).registered := by
      rw [removeAllPure_registered]
      rintro ⟨-, hnot⟩
      exact hnot hwm
    have hfs1 : fsFind (removeAllPure
        (st.registered.filter (fun u => isUnder r.worktreesDir u))
        st).fs w = none := by
      rw [removeAllPure_fs]
      have hany : (st.registered.filter
          (fun u => isUnder r.worktreesDir u)).any
          (fun u => isUnder u w) = true :=
        List.any_eq_true.mpr ⟨w, hwm, isUnder_refl w⟩
      simp [hany]
    rw [hst]
    exact stateAfterClear_none r _ w hreg1 hfs1
  · intro hwt hgcd hdir
    have hwm : w ∉ st.registered.filter (fun u => isUnder r.worktreesDir u) := by
      intro hmem
      have h := (List.mem_filter.mp hmem).2
      rw [hwt] at h
      exact Bool.noConfusion h
    have hreg1 : w ∈ (removeAllPure
        (st.registered.filter (fun u => isUnder r.worktreesDir u))
        st).registered :=
      (removeAllPure_registered _ _ _).mpr ⟨hw, hwm⟩
    have hany : (st.registered.filter (fun u => isUnder r.worktreesDir u)).any
        (fun u => isUnder u w) = false := by
      rw [Bool.eq_false_iff]
      intro hcontra
      rw [List.any_eq_true] at hcontra
      obtain ⟨u, hu, hup⟩ := hcontra
      have hwtu := (List.mem_filter.mp hu).2
      have h := isUnder_trans hwtu hup
      rw [hwt] at h
      exact Bool.noConfusion h
    have hfs1 : fsFind (removeAllPure
        (st.registered.filter (fun u => isUnder r.worktreesDir u))
        st).fs w = some FKind.dir := by
      rw [removeAllPure_fs, hany]
      simp [hdir]
    rw [hst]
    exact stateAfterClear_keep r _ w hreg1 hfs1 hwt hgcd

/-- Witness for C1: clearing a repository with one managed worktree `one`
and one foreign worktree removes `one` (registration and directory) and
leaves `foreign` fully intact. -/
theorem claim_C1_witness :
    ["r", "foreign"] ∈ (clear ⟨["r"], ["r", ".git"]⟩
      ⟨some ⟨["r"], ["r", ".git"]⟩, .ok (), fun _ => .ok (), .ok (.code 0),
        .ok (.code 0), .ok Config.default⟩
      ⟨[(["r"], FKind.dir), (["r", ".git"], FKind.dir),
          (["r", ".worktrees"], FKind.dir),
          (["r", ".worktrees", "one"], FKind.dir),
          (["r", "foreign"], FKind.dir)],
        [["r"], ["r", ".worktrees", "one"], ["r", "foreign"]]⟩).st.registered ∧
    fsFind (clear ⟨["r"], ["r", ".git"]⟩
      ⟨some ⟨["r"], ["r", ".git"]⟩, .ok (), fun _ => .ok (), .ok (.code 0),
        .ok (.code 0), .ok Config.default⟩
      ⟨[(["r"], FKind.dir), (["r", ".git"], FKind.dir),
          (["r", ".worktrees"], FKind.dir),
          (["r", ".worktrees", "one"], FKind.dir),
          (["r", "foreign"], FKind.dir)],
        [["r"], ["r", ".worktrees", "one"], ["r", "foreign"]]⟩).st.fs
      ["r", "foreign"] = some FKind.dir ∧
    fsFind (clear ⟨["r"], ["r", ".git"]⟩
      ⟨some ⟨["r"], ["r", ".git"]⟩, .ok (), fun _ => .ok (), .ok (.code 0),
        .ok (.code 0), .ok Config.default⟩
      ⟨[(["r"], FKind.dir), (["r", ".git"], FKind.dir),
          (["r", ".worktrees"], FKind.dir),
          (["r", ".worktrees", "one"], FKind.dir),
          (["r", "foreign"], FKind.dir)],
        [["r"], ["r", ".worktrees", "one"], ["r", "foreign"]]⟩).st.fs
      ["r", ".worktrees", "one"] = none := by
  have hfor := (claim_C1 ⟨["r"], ["r", ".git"]⟩
    ⟨some ⟨["r"], ["r", ".git"]⟩, .ok (), fun _ => .ok (), .ok (.code 0),
      .ok (.code 0), .ok Config.default⟩
    ⟨[(["r"], FKind.dir), (["r", ".git"], FKind.dir),
        (["r", ".worktrees"], FKind.dir),
        (["r", ".worktrees", "one"], FKind.dir),
        (["r", "foreign"], FKind.dir)],
      [["r"], ["r", ".worktrees", "one"], ["r", "foreign"]]⟩
    ["r", "foreign"] (fun u _ _ => rfl) (by decide)).2 (by decide) (by decide)
    (by decide)
  have hone := (claim_C1 ⟨["r"], ["r", ".git"]⟩
    ⟨some ⟨["r"], ["r", ".git"]⟩, .ok (), fun _ => .ok (), .ok (.code 0),
      .ok (.code 0), .ok Config.default⟩
    ⟨[(["r"], FKind.dir), (["r", ".git"], FKind.dir),
        (["r", ".worktrees"], FKind.dir),
        (["r", ".worktrees", "one"], FKind.dir),
        (["r", "foreign"], FKind.dir)],
      [["r"], ["r", ".worktrees", "one"], ["r", "foreign"]]⟩
    ["r", ".worktrees", "one"] (fun u _ _ => rfl) (by decide)).1 (by decide)
  exact ⟨hfor.1, hfor.2, hone.2⟩

theorem removeLoop_fail (env : Env) (ws1 : List Path) (w : Path)
    (ws2 : List Path) (st : St) (evs : List Ev) (m : String)
    (hok : ∀ u ∈ ws1, env.removeResult u = .ok ())
    (hfail : env.removeResult w = .error m) :
    removeLoop env (ws1 ++ w :: ws2) st evs
      = (some m, removeAllPure ws1 st,
          evs ++ ws1.map Ev.gitRemove ++ [Ev.gitRemove w]) := by
  induction ws1 generalizing st evs with
  | nil =>
    simp only [List.nil_append, removeLoop, hfail]
    simp [removeAllPure]
  | cons u rest ih =>
    have hu : env.removeResult u = .ok () := hok u (List.mem_cons_self u rest)
    have h2 := ih (gitWorktreeRemoveState u st) (evs ++ [Ev.gitRemove u])
      (fun v hv => hok v (List.mem_cons_of_mem u hv))
    simp only [List.cons_append, removeLoop, hu]
    exact h2.trans (by simp [removeAllPure, List.append_assoc])

/-- C6 counterexample: a backend force-remove failing with "is not a
working tree" is not classified as transient, becomes a hard error of the
retry driver, and aborts the whole clear: the clear returns that error, the
recursive on-disk delete of the managed directory never happens (no such
event, and the managed directory is still on disk afterwards), contrary to
the claim that the failure is tolerated and the delete proceeds. -/
theorem claim_C6_counterexample :
    is_git_lock_error "fatal: 'r/.worktrees/one' is not a working tree"
      = false ∧
    git_worktree_remove_with_retry ["r", ".worktrees", "one"]
      [(Attempt.err "fatal: 'r/.worktrees/one' is not a working tree", 5)]
      = RetryResult.hardError
        ("git worktree remove failed for r/.worktrees/one: "
          ++ "fatal: 'r/.worktrees/one' is not a working tree") [] ∧
    (clear ⟨["r"], ["r", ".git"]⟩
      ⟨some ⟨["r"], ["r", ".git"]⟩, .ok (),
        fun p => if p = ["r", ".worktrees", "one"] then
          .error ("git worktree remove failed for r/.worktrees/one: "
            ++ "fatal: 'r/.worktrees/one' is not a working tree")
          else .ok (),
        .ok (.code 0), .ok (.code 0), .ok Config.default⟩
      ⟨[(["r"], FKind.dir), (["r", ".git"], FKind.dir),
          (["r", ".worktrees"], FKind.dir),
          (["r", ".worktrees", "one"], FKind.dir)],
        [["r"], ["r", ".worktrees", "one"]]⟩).res
      = Res.err ("git worktree remove failed for r/.worktrees/one: "
          ++ "fatal: 'r/.worktrees/one' is not a working tree") ∧
    Ev.fsRemoveAll ["r", ".worktrees"] ∉ (clear ⟨["r"], ["r", ".git"]⟩
      ⟨some ⟨["r"], ["r", ".git"]⟩, .ok (),
        fun p => if p = ["r", ".worktrees", "one"] then
          .error ("git worktree remove failed for r/.worktrees/one: "
            ++ "fatal: 'r/.worktrees/one' is not a working tree")
          else .ok (),
        .ok (.code 0), .ok (.code 0), .ok Config.default⟩
      ⟨[(["r"], FKind.dir), (["r", ".git"], FKind.dir),
          (["r", ".worktrees"], FKind.dir),
          (["r", ".worktrees", "one"], FKind.dir)],
        [["r"], ["r", ".worktrees", "one"]]⟩).evs ∧
    fsFind (clear ⟨["r"], ["r", ".git"]⟩
      ⟨some ⟨["r"], ["r", ".git"]⟩, .ok (),
        fun p => if p = ["r", ".worktrees", "one"] then
          .error ("git worktree remove failed for r/.worktrees/one: "
            ++ "fatal: 'r/.worktrees/one' is not a working tree")
          else .ok (),
        .ok (.code 0), .ok (.code 0), .ok Config.default⟩
      ⟨[(["r"], FKind.dir), (["r", ".git"], FKind.dir),
          (["r", ".worktrees"], FKind.dir),
          (["r", ".worktrees", "one"], FKind.dir)],
        [["r"], ["r", ".worktrees", "one"]]⟩).st.fs ["r", ".worktrees"]
      = some FKind.dir := by
  refine ⟨by decide, by decide, by decide, by decide, by decide⟩

/-- C6 (amended): a backend force-remove failure for a single managed
worktree that is not transient lock contention is not tolerated: it aborts
the whole clear with that hard error, and the recursive on-disk delete of
the managed directory, the prune, the bookkeeping cleanup and the final
shell are never reached. -/
theorem claim_C6 (r : RepoCtx) (env : Env) (st : St) (w : Path) (m : String)
    (ws1 ws2 : List Path)
    (hsplit : st.registered.filter (fun u => isUnder r.worktreesDir u)
      = ws1 ++ w :: ws2)
    (hok : ∀ u ∈ ws1, env.removeResult u = .ok ())
    (hfail : env.removeResult w = .error m) :
    clear r env st = ⟨Res.err m, removeAllPure ws1 st,
      [Ev.chdir r.root, Ev.lock (r.gitCommonDir ++ ["worktree-tool.lock"])]
        ++ ws1.map Ev.gitRemove ++ [Ev.gitRemove w]⟩ ∧
    (∀ p, Ev.fsRemoveAll p ∉ (clear r env st).evs) ∧
    Ev.gitPrune ∉ (clear r env st).evs ∧
    Ev.spawnShell ∉ (clear r env st).evs := by
  have hml := removeLoop_fail env ws1 w ws2 st
    [Ev.chdir r.root, Ev.lock (r.gitCommonDir ++ ["worktree-tool.lock"])]
    m hok hfail
  have hclear : clear r env st = ⟨Res.err m, removeAllPure ws1 st,
      [Ev.chdir r.root, Ev.lock (r.gitCommonDir ++ ["worktree-tool.lock"])]
        ++ ws1.map Ev.gitRemove ++ [Ev.gitRemove w]⟩ := by
    simp [clear, hsplit, hml]
  refine ⟨hclear, ?_, ?_, ?_⟩
  · intro p
    rw [hclear]
    simp
  · rw [hclear]
    simp
  · rw [hclear]
    simp

/-- Witness for C6: a single managed worktree whose backend removal fails
makes clear return that failure with nothing deleted. -/
theorem claim_C6_witness :
    clear ⟨["r"], ["r", ".git"]⟩
      ⟨some ⟨["r"], ["r", ".git"]⟩, .ok (),
        fun p => if p = ["r", ".worktrees", "one"] then .error "remove failed"
          else .ok (),
        .ok (.code 0), .ok (.code 0), .ok Config.default⟩
      ⟨[(["r"], FKind.dir), (["r", ".worktrees"], FKind.dir),
          (["r", ".worktrees", "one"], FKind.dir)],
        [["r"], ["r", ".worktrees", "one"]]⟩
      = ⟨Res.err "remove failed",
          ⟨[(["r"], FKind.dir), (["r", ".worktrees"], FKind.dir),
              (["r", ".worktrees", "one"], FKind.dir)],
            [["r"], ["r", ".worktrees", "one"]]⟩,
          [Ev.chdir ["r"], Ev.lock ["r", ".git", "worktree-tool.lock"],
            Ev.gitRemove ["r", ".worktrees", "one"]]⟩ := by
  have h := (claim_C6 ⟨["r"], ["r", ".git"]⟩
    ⟨some ⟨["r"], ["r", ".git"]⟩, .ok (),
      fun p => if p = ["r", ".worktrees", "one"] then .error "remove failed"
        else .ok (),
      .ok (.code 0), .ok (.code 0), .ok Config.default⟩
    ⟨[(["r"], FKind.dir), (["r", ".worktrees"], FKind.dir),
        (["r", ".worktrees", "one"], FKind.dir)],
      [["r"], ["r", ".worktrees", "one"]]⟩
    ["r", ".worktrees", "one"] "remove failed" [] []
    (by decide) (fun u hu => absurd hu (List.not_mem_nil u)) rfl).1
  exact h.trans (by decide)

end Worktree
